import Mathlib

/-!
# Adler-32 (`adler32.c`): a shallow embedding and its verification

The embedding follows the scalar code path of `adler32.c` (the `#else` branches of the
`__arm__` conditionals; the NEON routine is inline assembly and is not modelled).

* `unsigned long` values are naturals; every operation that can carry out of the word is
  followed by an explicit wrap.  The wrap, and the reduction macros `MOD`, `MOD28`, `MOD63`
  chosen by the preprocessor, are parameters of the generic definitions (`adler32_gen`,
  `adler32_combine_gen`); `adler32 w` and `adler32_combine_ w` are the default build (no
  `NO_DIVIDE`) on a machine whose `unsigned long` has `w` bits, `adler32_NO_DIVIDE w` and
  `adler32_combine_NO_DIVIDE w` the build with `NO_DIVIDE`.
* A buffer pointer is `Option (List Byte)`: `none` is `Z_NULL`, `some bs` points at the bytes
  `bs` (the bytes from the pointer onwards); `buf + k` is `bs.drop k`.  Reading through
  `Z_NULL` or past the end of the bytes is a fault, the result `none`.
* `len` is a natural (the source's `uInt`; it only ever decreases), `len2` an integer (the
  source's signed `z_off64_t`).
-/

namespace Adler32

/-- An octet, the source's `Bytef`. -/
abbrev Byte := Fin 256

/-- Largest prime smaller than 65536. -/
def BASE : Nat := 65521

/-- Block length between two reductions. -/
def NMAX : Nat := 5552

/-- Arithmetic of an `unsigned long` of `w` bits: results are taken modulo `2 ^ w`. -/
def wrapUL (w : Nat) (x : Nat) : Nat := x % 2 ^ w

/-- The macro `MOD(a)` without `NO_DIVIDE`: `a %= BASE`. -/
def MOD (a : Nat) : Nat := a % BASE

/-- The macro `MOD28(a)` without `NO_DIVIDE`: `a %= BASE`. -/
def MOD28 (a : Nat) : Nat := a % BASE

/-- The macro `MOD63(a)` without `NO_DIVIDE`: `a %= BASE` on a `z_off64_t`
(C remainder, truncating towards zero). -/
def MOD63 (a : Int) : Int := Int.tmod a (BASE : Int)

/-- The macro `DO1(buf,i)`: `adler += buf[i]; sum2 += adler;` on the pair `(adler, sum2)`. -/
def DO1 (wr : Nat → Nat) (buf : List Byte) (i : Nat) (st : Nat × Nat) : Option (Nat × Nat) :=
  match buf[i]? with
  | none => none
  | some b =>
    let adler := wr (st.1 + b.val)
    some (adler, wr (st.2 + adler))

/-- The macro `DO2(buf,i)`. -/
def DO2 (wr : Nat → Nat) (buf : List Byte) (i : Nat) (st : Nat × Nat) : Option (Nat × Nat) :=
  (DO1 wr buf i st).bind (DO1 wr buf (i + 1))

/-- The macro `DO4(buf,i)`. -/
def DO4 (wr : Nat → Nat) (buf : List Byte) (i : Nat) (st : Nat × Nat) : Option (Nat × Nat) :=
  (DO2 wr buf i st).bind (DO2 wr buf (i + 2))

/-- The macro `DO8(buf,i)`. -/
def DO8 (wr : Nat → Nat) (buf : List Byte) (i : Nat) (st : Nat × Nat) : Option (Nat × Nat) :=
  (DO4 wr buf i st).bind (DO4 wr buf (i + 4))

/-- The macro `DO16(buf)`. -/
def DO16 (wr : Nat → Nat) (buf : List Byte) (st : Nat × Nat) : Option (Nat × Nat) :=
  (DO8 wr buf 0 st).bind (DO8 wr buf 8)

/-- The loop `while (len--) { adler += *buf++; sum2 += adler; }`. -/
def byteLoop (wr : Nat → Nat) : Nat → List Byte → Nat × Nat → Option (Nat × Nat)
  | 0, _, st => some st
  | _ + 1, [], _ => none
  | len + 1, b :: buf, st =>
    let adler := wr (st.1 + b.val)
    byteLoop wr len buf (adler, wr (st.2 + adler))

/-- The loop `n = NMAX / 16; do { DO16(buf); buf += 16; } while (--n);`, whose body runs
`n` times for the `n = 347` it is entered with. Returns the advanced pointer and the sums. -/
def do16Times (wr : Nat → Nat) : Nat → List Byte → Nat × Nat → Option (List Byte × (Nat × Nat))
  | 0, buf, st => some (buf, st)
  | n + 1, buf, st =>
    match DO16 wr buf st with
    | none => none
    | some st1 => do16Times wr n (buf.drop 16) st1

/-- The loop `while (len >= NMAX) { len -= NMAX; ...; MOD(adler); MOD(sum2); }`.
Returns the remaining length, the advanced pointer and the sums. -/
def nmaxLoop (wr md : Nat → Nat) (len : Nat) (buf : List Byte) (st : Nat × Nat) :
    Option (Nat × List Byte × (Nat × Nat)) :=
  if _h : len ≥ NMAX then
    match do16Times wr (NMAX / 16) buf st with
    | none => none
    | some (buf1, st1) => nmaxLoop wr md (len - NMAX) buf1 (md st1.1, md st1.2)
  else some (len, buf, st)
termination_by len
decreasing_by
  simp only [NMAX] at *
  omega

/-- The loop `while (len >= 16) { len -= 16; DO16(buf); buf += 16; }`.
Returns the remaining length, the advanced pointer and the sums. -/
def do16Loop (wr : Nat → Nat) (len : Nat) (buf : List Byte) (st : Nat × Nat) :
    Option (Nat × List Byte × (Nat × Nat)) :=
  if _h : len ≥ 16 then
    match DO16 wr buf st with
    | none => none
    | some st1 => do16Loop wr (len - 16) (buf.drop 16) st1
  else some (len, buf, st)
termination_by len
decreasing_by omega

/-- The function `adler32(adler, buf, len)`, generic in the word arithmetic `wr` and in the
reduction macros `md` (`MOD`) and `md28` (`MOD28`). -/
def adler32_gen (wr md md28 : Nat → Nat) (adler : Nat) (buf : Option (List Byte)) (len : Nat) :
    Option Nat :=
  -- split Adler-32 into component sums
  let sum2 := (adler >>> 16) &&& 0xffff
  let adler := adler &&& 0xffff
  -- in case user likes doing a byte at a time, keep it fast
  if len = 1 then
    match buf with
    | none => none                         -- `buf[0]` through `Z_NULL`
    | some bs =>
      match bs[0]? with
      | none => none
      | some b =>
        let adler := wr (adler + b.val)
        let adler := if adler ≥ BASE then adler - BASE else adler
        let sum2 := wr (sum2 + adler)
        let sum2 := if sum2 ≥ BASE then sum2 - BASE else sum2
        some (adler ||| wr (sum2 <<< 16))
  else
    -- initial Adler-32 value (deferred check for len == 1 speed)
    match buf with
    | none => some 1
    | some bs =>
      -- in case short lengths are provided, keep it somewhat fast
      if len < 16 then
        match byteLoop wr len bs (adler, sum2) with
        | none => none
        | some (adler, sum2) =>
          let adler := if adler ≥ BASE then adler - BASE else adler
          let sum2 := md28 sum2
          some (adler ||| wr (sum2 <<< 16))
      else
        -- do length NMAX blocks -- requires just one modulo operation
        match nmaxLoop wr md len bs (adler, sum2) with
        | none => none
        | some (len, bs, (adler, sum2)) =>
          -- do remaining bytes (less than NMAX, still just one modulo)
          if len ≠ 0 then
            match do16Loop wr len bs (adler, sum2) with
            | none => none
            | some (len, bs, st) =>
              match byteLoop wr len bs st with
              | none => none
              | some (adler, sum2) =>
                let adler := md adler
                let sum2 := md sum2
                some (adler ||| wr (sum2 <<< 16))
          else
            -- return recombined sums
            some (adler ||| wr (sum2 <<< 16))

/-- The function `adler32` of the default build, `unsigned long` of `w` bits. -/
def adler32 (w : Nat) (adler : Nat) (buf : Option (List Byte)) (len : Nat) : Option Nat :=
  adler32_gen (wrapUL w) MOD MOD28 adler buf len

/-- The code of `adler32` evaluated over unbounded integers: no operation wraps. -/
def adler32_unbounded (adler : Nat) (buf : Option (List Byte)) (len : Nat) : Option Nat :=
  adler32_gen id MOD MOD28 adler buf len

/-- The function `adler32_combine_(adler1, adler2, len2)`, generic in the width `w` of
`unsigned long` and in the reduction macros `md` (`MOD`) and `md63` (`MOD63`).
`unsigned` has 32 bits. -/
def adler32_combine_gen (w : Nat) (md : Nat → Nat) (md63 : Int → Int)
    (adler1 adler2 : Nat) (len2 : Int) : Nat :=
  -- for negative len, return invalid adler32 as a clue for debugging
  if len2 < 0 then 0xffffffff
  else
    let len2 := md63 len2
    let rem := (len2 % 2 ^ 32).toNat            -- rem = (unsigned)len2
    let sum1 := adler1 &&& 0xffff
    let sum2 := wrapUL w (rem * sum1)
    let sum2 := md sum2
    let sum1 := wrapUL w (sum1 + wrapUL w ((adler2 &&& 0xffff) + BASE - 1))
    let sum2 := wrapUL w (sum2 +
      wrapUL w (((adler1 >>> 16) &&& 0xffff) + ((adler2 >>> 16) &&& 0xffff) + BASE
        + (2 ^ w - rem % 2 ^ w)))
    let sum1 := if sum1 ≥ BASE then sum1 - BASE else sum1
    let sum1 := if sum1 ≥ BASE then sum1 - BASE else sum1
    let sum2 := if sum2 ≥ BASE <<< 1 then sum2 - (BASE <<< 1) else sum2
    let sum2 := if sum2 ≥ BASE then sum2 - BASE else sum2
    sum1 ||| wrapUL w (sum2 <<< 16)

/-- The function `adler32_combine_` of the default build. -/
def adler32_combine_ (w : Nat) (adler1 adler2 : Nat) (len2 : Int) : Nat :=
  adler32_combine_gen w MOD MOD63 adler1 adler2 len2

/-- The function `adler32_combine`: its `z_off_t` length converts to `z_off64_t` unchanged. -/
def adler32_combine (w : Nat) (adler1 adler2 : Nat) (len2 : Int) : Nat :=
  adler32_combine_ w adler1 adler2 len2

/-- The function `adler32_combine64`. -/
def adler32_combine64 (w : Nat) (adler1 adler2 : Nat) (len2 : Int) : Nat :=
  adler32_combine_ w adler1 adler2 len2

/-! ## The `NO_DIVIDE` build and the blocks of `adler32` -/

/-- The macro `CHOP(a)` of the `NO_DIVIDE` build, on an `unsigned long` of `w` bits:
`tmp = a >> 16; a &= 0xffff; a += (tmp << 4) - tmp;`. -/
def CHOP (w : Nat) (a : Nat) : Nat :=
  let tmp := a >>> 16
  let a := a &&& 0xffff
  wrapUL w (a + wrapUL w (wrapUL w (tmp <<< 4) + (2 ^ w - tmp % 2 ^ w)))

/-- The macro `MOD28(a)` of the `NO_DIVIDE` build: `CHOP(a); if (a >= BASE) a -= BASE;`. -/
def MOD28_NO_DIVIDE (w : Nat) (a : Nat) : Nat :=
  let a := CHOP w a
  if a ≥ BASE then a - BASE else a

/-- The macro `MOD(a)` of the `NO_DIVIDE` build: `CHOP(a); MOD28(a);`. -/
def MOD_NO_DIVIDE (w : Nat) (a : Nat) : Nat :=
  let a := CHOP w a
  MOD28_NO_DIVIDE w a

/-- The macro `MOD63(a)` of the `NO_DIVIDE` build, on a `z_off64_t` (a signed integer; the
values stay far below `2 ^ 63`, so no operation overflows). -/
def MOD63_NO_DIVIDE (a : Int) : Int :=
  let tmp := a >>> (32 : Nat)
  let a := Int.land a 0xffffffff
  let a := a + ((tmp <<< (8 : Int)) - (tmp <<< (5 : Int)) + tmp)
  let tmp := a >>> (16 : Nat)
  let a := Int.land a 0xffff
  let a := a + ((tmp <<< (4 : Int)) - tmp)
  let tmp := a >>> (16 : Nat)
  let a := Int.land a 0xffff
  let a := a + ((tmp <<< (4 : Int)) - tmp)
  if a ≥ (BASE : Int) then a - (BASE : Int) else a

/-- The function `adler32` of the `NO_DIVIDE` build, `unsigned long` of `w` bits. -/
def adler32_NO_DIVIDE (w : Nat) (adler : Nat) (buf : Option (List Byte)) (len : Nat) :
    Option Nat :=
  adler32_gen (wrapUL w) (MOD_NO_DIVIDE w) (MOD28_NO_DIVIDE w) adler buf len

/-- The function `adler32_combine_` of the `NO_DIVIDE` build. -/
def adler32_combine_NO_DIVIDE (w : Nat) (adler1 adler2 : Nat) (len2 : Int) : Nat :=
  adler32_combine_gen w (MOD_NO_DIVIDE w) MOD63_NO_DIVIDE adler1 adler2 len2

/-- The `len == 1` block of `adler32` on its own, entered after the split of `adler`. -/
def adler32_one (wr : Nat → Nat) (adler : Nat) (bs : List Byte) : Option Nat :=
  let sum2 := (adler >>> 16) &&& 0xffff
  let adler := adler &&& 0xffff
  match bs[0]? with
  | none => none
  | some b =>
    let adler := wr (adler + b.val)
    let adler := if adler ≥ BASE then adler - BASE else adler
    let sum2 := wr (sum2 + adler)
    let sum2 := if sum2 ≥ BASE then sum2 - BASE else sum2
    some (adler ||| wr (sum2 <<< 16))

/-- The `len < 16` block of `adler32` on its own, entered after the split of `adler`. -/
def adler32_short (wr md28 : Nat → Nat) (adler : Nat) (bs : List Byte) (len : Nat) :
    Option Nat :=
  let sum2 := (adler >>> 16) &&& 0xffff
  let adler := adler &&& 0xffff
  match byteLoop wr len bs (adler, sum2) with
  | none => none
  | some (adler, sum2) =>
    let adler := if adler ≥ BASE then adler - BASE else adler
    let sum2 := md28 sum2
    some (adler ||| wr (sum2 <<< 16))

/-- The bound in the comment on `NMAX`: `255n(n+1)/2 + (n+1)(BASE-1)`. -/
def nmaxBound (n : Nat) : Nat := 255 * n * (n + 1) / 2 + (n + 1) * (BASE - 1)

/-! ## Specification-level definitions -/

/-- The two sums after the bytes `bs`, without any reduction or wrap. -/
def acc (st : Nat × Nat) (bs : List Byte) : Nat × Nat :=
  bs.foldl (fun st b => (st.1 + b.val, st.2 + (st.1 + b.val))) st

/-- The per-byte step of Adler-32: `s1 := (s1 + b) mod BASE`, `s2 := (s2 + s1) mod BASE`. -/
def step (st : Nat × Nat) (b : Byte) : Nat × Nat :=
  ((st.1 + b.val) % BASE, (st.2 + (st.1 + b.val) % BASE) % BASE)

/-- The per-byte step folded over a byte sequence. -/
def run (st : Nat × Nat) (bs : List Byte) : Nat × Nat := bs.foldl step st

/-- The packed representation `sum1 | (sum2 << 16)`. -/
def pack (st : Nat × Nat) : Nat := st.1 ||| (st.2 <<< 16)

/-- The component sums of a packed value: its low and its high 16 bits. -/
def unpack (x : Nat) : Nat × Nat := (x &&& 0xffff, (x >>> 16) &&& 0xffff)

/-- A valid packed state: low 16 bits and high 16 bits both below `BASE`. -/
def Valid (x : Nat) : Prop := x &&& 0xffff < BASE ∧ (x >>> 16) &&& 0xffff < BASE

instance (x : Nat) : Decidable (Valid x) := by unfold Valid; infer_instance

/-- The sum of the bytes of `bs`. -/
def byteSum (bs : List Byte) : Nat := (bs.map (fun b => b.val)).sum

/-- The value `1 + b_0 + ... + b_{k-1}` of sum1 after the first `k` bytes. -/
def leadSum (bs : List Byte) (k : Nat) : Nat := 1 + byteSum (bs.take k)

/-- The closed form of sum1: `(1 + sum of all bytes) mod BASE`. -/
def sum1Spec (bs : List Byte) : Nat := (1 + byteSum bs) % BASE

/-- The closed form of sum2: `(sum over k = 1..n of (1 + b_0 + ... + b_{k-1})) mod BASE`. -/
def sum2Spec (bs : List Byte) : Nat :=
  (((List.range bs.length).map (fun k => leadSum bs (k + 1))).sum) % BASE

/-! ## Bit operations -/

theorem and_ffff (x : Nat) : x &&& 0xffff = x % 65536 := by
  have := Nat.and_pow_two_sub_one_eq_mod x 16
  simpa using this

theorem shr16 (x : Nat) : x >>> 16 = x / 65536 := by
  rw [Nat.shiftRight_eq_div_pow]

theorem shl16 (x : Nat) : x <<< 16 = x * 65536 := by
  rw [Nat.shiftLeft_eq]

theorem or_shl16 (a s : Nat) (ha : a < 65536) : a ||| (s * 65536) = s * 65536 + a := by
  have h := Nat.mul_add_lt_is_or (i := 16) (b := a) (by simpa using ha) s
  rw [Nat.lor_comm, Nat.mul_comm s]
  simpa using h.symm

/-! ## The loops -/

theorem acc_nil (st : Nat × Nat) : acc st [] = st := rfl

theorem acc_cons (st : Nat × Nat) (b : Byte) (bs : List Byte) :
    acc st (b :: bs) = acc (st.1 + b.val, st.2 + (st.1 + b.val)) bs := rfl

theorem acc_append (st : Nat × Nat) (xs ys : List Byte) :
    acc st (xs ++ ys) = acc (acc st xs) ys := by
  simp [acc, List.foldl_append]

theorem acc_ge (bs : List Byte) : ∀ st : Nat × Nat, st.1 ≤ (acc st bs).1 ∧ st.2 ≤ (acc st bs).2 := by
  induction bs with
  | nil => intro st; simp [acc_nil]
  | cons b bs ih =>
    intro st
    rw [acc_cons]
    have h := ih (st.1 + b.val, st.2 + (st.1 + b.val))
    simp only at h
    omega

/-- The growth of the unreduced sums over `n` bytes: `255 n` and `n * sum1 + 255 n (n+1) / 2`. -/
theorem acc_bound (bs : List Byte) : ∀ st : Nat × Nat,
    (acc st bs).1 ≤ st.1 + 255 * bs.length ∧
    2 * (acc st bs).2 ≤ 2 * st.2 + 2 * (bs.length * st.1) + 255 * (bs.length * (bs.length + 1)) := by
  induction bs with
  | nil => intro st; simp [acc_nil]
  | cons b bs ih =>
    intro st
    rw [acc_cons]
    have h := ih (st.1 + b.val, st.2 + (st.1 + b.val))
    simp only [List.length_cons] at h ⊢
    have hb : b.val ≤ 255 := by omega
    have h1 : bs.length * (st.1 + b.val) ≤ bs.length * st.1 + bs.length * 255 := by
      rw [Nat.mul_add]
      exact Nat.add_le_add_left (Nat.mul_le_mul_left _ hb) _
    have h2 : (bs.length + 1) * st.1 = bs.length * st.1 + st.1 := by ring
    have h3 : (bs.length + 1) * (bs.length + 1 + 1) = bs.length * (bs.length + 1) + 2 * bs.length + 2 := by
      ring
    rw [h2, h3]
    omega

/-- Running the byte loop for `m + k` bytes is running it for `m` bytes and then for `k`. -/
theorem byteLoop_add (wr : Nat → Nat) (m k : Nat) : ∀ (buf : List Byte) (st : Nat × Nat),
    byteLoop wr (m + k) buf st = (byteLoop wr m buf st).bind (byteLoop wr k (buf.drop m)) := by
  induction m with
  | zero => intro buf st; simp [byteLoop]
  | succ m ih =>
    intro buf st
    rw [Nat.add_right_comm]
    cases buf with
    | nil => simp [byteLoop]
    | cons b buf => simp [byteLoop, ih]

theorem DO1_eq (wr : Nat → Nat) (buf : List Byte) (i : Nat) (st : Nat × Nat) :
    DO1 wr buf i st = byteLoop wr 1 (buf.drop i) st := by
  unfold DO1
  cases h : buf.drop i with
  | nil =>
    have : buf[i]? = none := by
      rw [List.getElem?_eq_none_iff]
      exact List.drop_eq_nil_iff.mp h
    simp [this, byteLoop]
  | cons b rest =>
    have : buf[i]? = some b := by
      have h0 := List.getElem?_drop buf i 0
      rw [h] at h0
      simpa using h0.symm
    simp [this, byteLoop]

theorem DO2_eq (wr : Nat → Nat) (buf : List Byte) (i : Nat) (st : Nat × Nat) :
    DO2 wr buf i st = byteLoop wr 2 (buf.drop i) st := by
  unfold DO2
  rw [show (2 : Nat) = 1 + 1 from rfl, byteLoop_add, DO1_eq, List.drop_drop]
  congr 1
  funext s
  rw [DO1_eq, Nat.add_comm]

theorem DO4_eq (wr : Nat → Nat) (buf : List Byte) (i : Nat) (st : Nat × Nat) :
    DO4 wr buf i st = byteLoop wr 4 (buf.drop i) st := by
  unfold DO4
  rw [show (4 : Nat) = 2 + 2 from rfl, byteLoop_add, DO2_eq, List.drop_drop]
  congr 1
  funext s
  rw [DO2_eq, Nat.add_comm]

theorem DO8_eq (wr : Nat → Nat) (buf : List Byte) (i : Nat) (st : Nat × Nat) :
    DO8 wr buf i st = byteLoop wr 8 (buf.drop i) st := by
  unfold DO8
  rw [show (8 : Nat) = 4 + 4 from rfl, byteLoop_add, DO4_eq, List.drop_drop]
  congr 1
  funext s
  rw [DO4_eq, Nat.add_comm]

/-- The unrolled `DO16` reads and adds the same 16 bytes, in the same order, as the byte loop. -/
theorem DO16_eq (wr : Nat → Nat) (buf : List Byte) (st : Nat × Nat) :
    DO16 wr buf st = byteLoop wr 16 buf st := by
  unfold DO16
  rw [show (16 : Nat) = 8 + 8 from rfl, byteLoop_add, DO8_eq, List.drop_zero]
  congr 1
  funext s
  rw [DO8_eq]

theorem do16Times_eq (wr : Nat → Nat) (n : Nat) : ∀ (buf : List Byte) (st : Nat × Nat),
    do16Times wr n buf st =
      (byteLoop wr (16 * n) buf st).map (fun r => (buf.drop (16 * n), r)) := by
  induction n with
  | zero => intro buf st; simp [do16Times, byteLoop]
  | succ n ih =>
    intro buf st
    rw [do16Times, DO16_eq, show 16 * (n + 1) = 16 + 16 * n by ring, byteLoop_add]
    cases h : byteLoop wr 16 buf st with
    | none => simp
    | some st1 => simp [ih, List.drop_drop, Nat.add_comm]

theorem do16Loop_eq (wr : Nat → Nat) (len : Nat) : ∀ (buf : List Byte) (st : Nat × Nat),
    do16Loop wr len buf st =
      (byteLoop wr (len - len % 16) buf st).map
        (fun r => (len % 16, buf.drop (len - len % 16), r)) := by
  induction len using Nat.strong_induction_on with
  | _ len ih =>
    intro buf st
    rw [do16Loop]
    split
    · rename_i h
      rw [DO16_eq]
      have e1 : len - len % 16 = 16 + ((len - 16) - (len - 16) % 16) := by omega
      have e2 : (len - 16) % 16 = len % 16 := by omega
      rw [e1, byteLoop_add]
      cases h1 : byteLoop wr 16 buf st with
      | none => simp
      | some st1 =>
        simp only [Option.some_bind]
        rw [ih (len - 16) (by omega)]
        simp [List.drop_drop, e2, Nat.add_comm]
    · rename_i h
      have e1 : len - len % 16 = 0 := by omega
      have e2 : len % 16 = len := by omega
      simp [e1, e2, byteLoop]

/-- While the unreduced sums stay below `2 ^ 32` the byte loop computes them exactly. -/
theorem byteLoop_eq_acc (wr : Nat → Nat) (hwr : ∀ x, x < 2 ^ 32 → wr x = x) (n : Nat) :
    ∀ (buf : List Byte) (st : Nat × Nat), n ≤ buf.length →
      (acc st (buf.take n)).1 < 2 ^ 32 → (acc st (buf.take n)).2 < 2 ^ 32 →
      byteLoop wr n buf st = some (acc st (buf.take n)) := by
  induction n with
  | zero => intro buf st _ _ _; simp [byteLoop, acc_nil]
  | succ n ih =>
    intro buf st hn h1 h2
    cases buf with
    | nil => simp at hn
    | cons b buf =>
      simp only [List.take_succ_cons, acc_cons] at h1 h2 ⊢
      simp only [List.length_cons] at hn
      have hge := acc_ge (buf.take n) (st.1 + b.val, st.2 + (st.1 + b.val))
      simp only at hge
      have w1 : wr (st.1 + b.val) = st.1 + b.val := hwr _ (by omega)
      have w2 : wr (st.2 + (st.1 + b.val)) = st.2 + (st.1 + b.val) := hwr _ (by omega)
      simp only [byteLoop, w1, w2]
      exact ih buf _ (by omega) h1 h2

/-! ## Reduction modulo `BASE` and packing -/

theorem run_nil (st : Nat × Nat) : run st [] = st := rfl

theorem run_cons (st : Nat × Nat) (b : Byte) (bs : List Byte) :
    run st (b :: bs) = run (step st b) bs := rfl

theorem run_append (st : Nat × Nat) (xs ys : List Byte) :
    run st (xs ++ ys) = run (run st xs) ys := by
  simp [run, List.foldl_append]

theorem step_lt (st : Nat × Nat) (b : Byte) : (step st b).1 < BASE ∧ (step st b).2 < BASE := by
  simp only [step, BASE]
  omega

theorem run_lt (bs : List Byte) : ∀ st : Nat × Nat, st.1 < BASE → st.2 < BASE →
    (run st bs).1 < BASE ∧ (run st bs).2 < BASE := by
  induction bs with
  | nil => intro st h1 h2; exact ⟨h1, h2⟩
  | cons b bs ih =>
    intro st _ _
    rw [run_cons]
    exact ih _ (step_lt st b).1 (step_lt st b).2

/-- Reducing the unreduced sums modulo `BASE` gives the per-byte fold. -/
theorem acc_mod (bs : List Byte) : ∀ st : Nat × Nat,
    ((acc st bs).1 % BASE, (acc st bs).2 % BASE) = run (st.1 % BASE, st.2 % BASE) bs := by
  induction bs with
  | nil => intro st; rfl
  | cons b bs ih =>
    intro st
    rw [acc_cons, run_cons, ih]
    congr 1
    simp only [step, BASE, Prod.mk.injEq]
    omega

theorem acc_mod_of_lt (bs : List Byte) (st : Nat × Nat) (h1 : st.1 < BASE) (h2 : st.2 < BASE) :
    ((acc st bs).1 % BASE, (acc st bs).2 % BASE) = run st bs := by
  rw [acc_mod, Nat.mod_eq_of_lt h1, Nat.mod_eq_of_lt h2]

theorem pack_eq (st : Nat × Nat) (h1 : st.1 < 65536) : pack st = st.2 * 65536 + st.1 := by
  unfold pack
  rw [shl16, or_shl16 _ _ h1]

theorem unpack_eq (x : Nat) : unpack x = (x % 65536, x / 65536 % 65536) := by
  unfold unpack
  rw [and_ffff, shr16, and_ffff]

theorem valid_iff (x : Nat) : Valid x ↔ x % 65536 < BASE ∧ x / 65536 % 65536 < BASE := by
  unfold Valid
  rw [and_ffff, shr16, and_ffff]

theorem unpack_pack (st : Nat × Nat) (h1 : st.1 < BASE) (h2 : st.2 < BASE) :
    unpack (pack st) = st := by
  have h1' : st.1 < 65536 := by simp only [BASE] at h1; omega
  rw [pack_eq st h1', unpack_eq]
  simp only [BASE] at h1 h2
  ext
  · simp only; omega
  · simp only; omega

theorem pack_lt (st : Nat × Nat) (h1 : st.1 < BASE) (h2 : st.2 < BASE) : pack st < 2 ^ 32 := by
  have h1' : st.1 < 65536 := by simp only [BASE] at h1; omega
  rw [pack_eq st h1']
  simp only [BASE] at h1 h2
  omega

theorem pack_unpack (x : Nat) (hx : x < 2 ^ 32) : pack (unpack x) = x := by
  rw [unpack_eq, pack_eq _ (by simp only; omega)]
  simp only
  omega

/-! ## Blocks of at most `NMAX` bytes do not overflow -/

theorem acc_bound_of_le (bs : List Byte) (st : Nat × Nat) (N : Nat)
    (h1 : st.1 < BASE) (h2 : st.2 < BASE) (hN : bs.length ≤ N) :
    (acc st bs).1 ≤ 65520 + 255 * N ∧
    2 * (acc st bs).2 ≤ 131040 + 131040 * N + 255 * (N * (N + 1)) := by
  have h := acc_bound bs st
  simp only [BASE] at h1 h2
  have a1 : bs.length * st.1 ≤ N * 65520 := Nat.mul_le_mul hN (by omega)
  have a2 : bs.length * (bs.length + 1) ≤ N * (N + 1) := Nat.mul_le_mul hN (by omega)
  omega

/-- From sums below `BASE`, at most `NMAX` bytes are accumulated without overflow. -/
theorem block_eq (wr : Nat → Nat) (hwr : ∀ x, x < 2 ^ 32 → wr x = x) (n : Nat)
    (buf : List Byte) (st : Nat × Nat) (h1 : st.1 < BASE) (h2 : st.2 < BASE)
    (hn : n ≤ NMAX) (hlen : n ≤ buf.length) :
    byteLoop wr n buf st = some (acc st (buf.take n)) ∧
      (acc st (buf.take n)).1 < 2 ^ 32 ∧ (acc st (buf.take n)).2 < 2 ^ 32 := by
  have hb := acc_bound_of_le (buf.take n) st NMAX h1 h2
    (by rw [List.length_take]; omega)
  simp only [NMAX] at hb
  have b1 : (acc st (buf.take n)).1 < 2 ^ 32 := by omega
  have b2 : (acc st (buf.take n)).2 < 2 ^ 32 := by omega
  exact ⟨byteLoop_eq_acc wr hwr n buf st hlen b1 b2, b1, b2⟩

/-- The loop over blocks of `NMAX` bytes consumes `len - len % NMAX` bytes and leaves the
per-byte fold of them. -/
theorem nmaxLoop_eq (wr md : Nat → Nat) (hwr : ∀ x, x < 2 ^ 32 → wr x = x)
    (hmd : ∀ x, x < 2 ^ 32 → md x = x % BASE) (len : Nat) :
    ∀ (buf : List Byte) (st : Nat × Nat), st.1 < BASE → st.2 < BASE → len ≤ buf.length →
      nmaxLoop wr md len buf st =
        some (len % NMAX, buf.drop (len - len % NMAX), run st (buf.take (len - len % NMAX))) := by
  induction len using Nat.strong_induction_on with
  | _ len ih =>
    intro buf st h1 h2 hlen
    rw [nmaxLoop]
    split
    · rename_i h
      have hN : NMAX / 16 * 16 = NMAX := by decide
      obtain ⟨hb, b1, b2⟩ := block_eq wr hwr NMAX buf st h1 h2 (le_refl _) (by omega)
      rw [do16Times_eq, Nat.mul_comm, hN, hb]
      simp only [Option.map_some']
      rw [hmd _ b1, hmd _ b2]
      have hr := acc_mod_of_lt (buf.take NMAX) st h1 h2
      have hlt := run_lt (buf.take NMAX) st h1 h2
      rw [← hr] at hlt
      rw [ih (len - NMAX) (by simp only [NMAX] at h ⊢; omega) _ _ hlt.1 hlt.2
        (by rw [List.length_drop]; omega)]
      have e1 : (len - NMAX) % NMAX = len % NMAX := by
        simp only [NMAX] at h ⊢; omega
      have e2 : len - len % NMAX = NMAX + (len - NMAX - len % NMAX) := by
        simp only [NMAX] at h ⊢; omega
      rw [e1, e2, List.drop_drop, List.take_add, run_append]
      simp only [hr]
    · rename_i h
      have e1 : len % NMAX = len := Nat.mod_eq_of_lt (by omega)
      simp [e1, run_nil]

/-! ## The accumulator computes the per-byte fold -/

theorem wr_pack (wr : Nat → Nat) (hwr : ∀ x, x < 2 ^ 32 → wr x = x) (st : Nat × Nat)
    (_h1 : st.1 < BASE) (h2 : st.2 < BASE) : st.1 ||| wr (st.2 <<< 16) = pack st := by
  unfold pack
  rw [hwr]
  rw [shl16]
  simp only [BASE] at h2
  omega

theorem condSub_eq (x : Nat) (h : x < 2 * BASE) :
    (if x ≥ BASE then x - BASE else x) = x % BASE := by
  simp only [BASE] at h ⊢
  split <;> omega

/-- Every path of `adler32` returns the packed per-byte fold of the first `len` bytes, for any
word arithmetic exact below `2 ^ 32` and any reductions exact on their range. -/
theorem adler32_gen_eq (wr md md28 : Nat → Nat) (hwr : ∀ x, x < 2 ^ 32 → wr x = x)
    (hmd : ∀ x, x < 2 ^ 32 → md x = x % BASE) (hmd28 : ∀ x, x < 2 ^ 28 → md28 x = x % BASE)
    (adler : Nat) (bs : List Byte) (len : Nat) (hv : Valid adler) (hlen : len ≤ bs.length) :
    adler32_gen wr md md28 adler (some bs) len =
      some (pack (run (unpack adler) (bs.take len))) := by
  obtain ⟨h1, h2⟩ := hv
  have hu : unpack adler = (adler &&& 0xffff, (adler >>> 16) &&& 0xffff) := rfl
  rw [hu]
  unfold adler32_gen
  generalize adler &&& 0xffff = a at h1 ⊢
  generalize (adler >>> 16) &&& 0xffff = s at h2 ⊢
  simp only
  by_cases hl1 : len = 1
  · subst hl1
    cases bs with
    | nil => simp at hlen
    | cons b rest =>
      have hb : b.val < 256 := b.isLt
      simp only [if_true, List.getElem?_cons_zero, List.take_succ_cons, List.take_zero,
        run_cons, run_nil]
      have hlt := step_lt (a, s) b
      rw [← wr_pack wr hwr _ hlt.1 hlt.2]
      simp only [BASE] at h1 h2
      have w1 : wr (a + b.val) = a + b.val := hwr _ (by omega)
      rw [w1, condSub_eq _ (by simp only [BASE]; omega)]
      have hm : (a + b.val) % BASE ≤ 65520 := by simp only [BASE]; omega
      have w2 : wr (s + (a + b.val) % BASE) = s + (a + b.val) % BASE := hwr _ (by omega)
      have hB : 2 * BASE = 131042 := rfl
      rw [w2, condSub_eq _ (by omega)]
      rfl
  · simp only [if_neg hl1]
    by_cases hl16 : len < 16
    · simp only [if_pos hl16]
      obtain ⟨hb, _, _⟩ := block_eq wr hwr len bs (a, s) h1 h2
        (by simp only [NMAX]; omega) hlen
      have hbd := acc_bound_of_le (bs.take len) (a, s) 15 h1 h2
        (by rw [List.length_take]; omega)
      rw [hb]
      simp only
      have hr := acc_mod_of_lt (bs.take len) (a, s) h1 h2
      have hlt := run_lt (bs.take len) (a, s) h1 h2
      rw [← wr_pack wr hwr _ hlt.1 hlt.2, ← hr]
      rw [condSub_eq _ (by simp only [BASE]; omega), hmd28 _ (by omega)]
    · simp only [if_neg hl16]
      rw [nmaxLoop_eq wr md hwr hmd len bs (a, s) h1 h2 hlen]
      simp only
      have hlt := run_lt (bs.take (len - len % NMAX)) (a, s) h1 h2
      have hsplit : bs.take len =
          bs.take (len - len % NMAX) ++ (bs.drop (len - len % NMAX)).take (len % NMAX) := by
        have : len = (len - len % NMAX) + len % NMAX := by
          have := Nat.mod_le len NMAX
          omega
        conv_lhs => rw [this]
        rw [List.take_add]
      rw [hsplit, run_append]
      generalize run (a, s) (bs.take (len - len % NMAX)) = st1 at hlt ⊢
      have hmlt : len % NMAX < NMAX := Nat.mod_lt _ (by decide)
      have hdl : len % NMAX ≤ (bs.drop (len - len % NMAX)).length := by
        rw [List.length_drop]
        have := Nat.mod_le len NMAX
        omega
      generalize bs.drop (len - len % NMAX) = buf1 at hdl ⊢
      generalize len % NMAX = k at hmlt hdl ⊢
      by_cases hk : k = 0
      · subst hk
        simp only [ne_eq, not_true_eq_false, if_false, List.take_zero, run_nil]
        rw [wr_pack wr hwr _ hlt.1 hlt.2]
      · simp only [ne_eq, hk, not_false_eq_true, if_true]
        rw [do16Loop_eq]
        obtain ⟨hb, b1, b2⟩ := block_eq wr hwr k buf1 st1 hlt.1 hlt.2 (by omega) hdl
        have hk2 : k = (k - k % 16) + k % 16 := by
          have := Nat.mod_le k 16
          omega
        rw [hk2, byteLoop_add] at hb
        cases hc : byteLoop wr (k - k % 16) buf1 st1 with
        | none => rw [hc] at hb; simp at hb
        | some st2 =>
          rw [hc] at hb
          simp only [Option.some_bind] at hb
          simp only [Option.map_some']
          rw [hb, ← hk2]
          simp only
          have hr := acc_mod_of_lt (buf1.take k) st1 hlt.1 hlt.2
          have hlt2 := run_lt (buf1.take k) st1 hlt.1 hlt.2
          rw [← wr_pack wr hwr _ hlt2.1 hlt2.2, ← hr, hmd _ b1, hmd _ b2]

/-! ## The combiner on valid checksums -/

theorem wrapUL_of_lt (w : Nat) (hw : 32 ≤ w) (x : Nat) (hx : x < 2 ^ 32) : wrapUL w x = x := by
  unfold wrapUL
  have : 2 ^ 32 ≤ 2 ^ w := Nat.pow_le_pow_right (by decide) hw
  exact Nat.mod_eq_of_lt (by omega)

theorem rem_eq (n : Nat) : ((MOD63 (n : Int)) % 2 ^ 32).toNat = n % BASE := by
  unfold MOD63
  rw [← Int.ofNat_tmod]
  have h : n % BASE < 65521 := Nat.mod_lt _ (by decide)
  generalize n % BASE = r at h
  omega

theorem sub_wrap (w : Nat) (hw : 32 ≤ w) (x r : Nat) (hr : r ≤ x) (hx : x < 2 ^ 32) :
    wrapUL w (x + (2 ^ w - r % 2 ^ w)) = x - r := by
  unfold wrapUL
  have h2 : 2 ^ 32 ≤ 2 ^ w := Nat.pow_le_pow_right (by decide) hw
  have e1 : r % 2 ^ w = r := Nat.mod_eq_of_lt (by omega)
  have e2 : x + (2 ^ w - r) = (x - r) + 2 ^ w := by omega
  rw [e1, e2, Nat.add_mod_right]
  exact Nat.mod_eq_of_lt (by omega)

/-- On valid checksums the combiner returns the packed pair of fully reduced sums. -/
theorem combine_eq (w : Nat) (hw : 32 ≤ w) (c1 c2 : Nat) (h1 : Valid c1) (h2 : Valid c2)
    (n : Nat) :
    adler32_combine_ w c1 c2 (n : Int) =
      pack (((unpack c1).1 + (unpack c2).1 + BASE - 1) % BASE,
        ((n % BASE * (unpack c1).1) % BASE + (unpack c1).2 + (unpack c2).2 + BASE - n % BASE)
          % BASE) := by
  obtain ⟨ha1, hs1⟩ := h1
  obtain ⟨ha2, hs2⟩ := h2
  unfold adler32_combine_ adler32_combine_gen unpack
  have hneg : ¬ ((n : Int) < 0) := by omega
  simp only [if_neg hneg, rem_eq, MOD]
  generalize c1 &&& 0xffff = a1 at ha1 ⊢
  generalize (c1 >>> 16) &&& 0xffff = s1 at hs1 ⊢
  generalize c2 &&& 0xffff = a2 at ha2 ⊢
  generalize (c2 >>> 16) &&& 0xffff = s2 at hs2 ⊢
  have hr : n % BASE < 65521 := Nat.mod_lt _ (by decide)
  generalize n % BASE = r at hr ⊢
  simp only [BASE] at ha1 hs1 ha2 hs2
  have hprod : r * a1 < 2 ^ 32 := by
    have : r * a1 ≤ 65520 * 65520 := Nat.mul_le_mul (by omega) (by omega)
    omega
  have hM : (r * a1) % BASE ≤ 65520 := by simp only [BASE]; omega
  rw [wrapUL_of_lt w hw _ hprod]
  generalize (r * a1) % BASE = M at hM ⊢
  have hB : BASE = 65521 := rfl
  have hB1 : BASE <<< 1 = 131042 := by decide
  rw [wrapUL_of_lt w hw (a2 + BASE - 1) (by omega),
    wrapUL_of_lt w hw (a1 + (a2 + BASE - 1)) (by omega),
    sub_wrap w hw (s1 + s2 + BASE) r (by omega) (by omega),
    wrapUL_of_lt w hw (M + (s1 + s2 + BASE - r)) (by omega)]
  have e1 : (if (if a1 + (a2 + BASE - 1) ≥ BASE then a1 + (a2 + BASE - 1) - BASE
        else a1 + (a2 + BASE - 1)) ≥ BASE
      then (if a1 + (a2 + BASE - 1) ≥ BASE then a1 + (a2 + BASE - 1) - BASE
        else a1 + (a2 + BASE - 1)) - BASE
      else (if a1 + (a2 + BASE - 1) ≥ BASE then a1 + (a2 + BASE - 1) - BASE
        else a1 + (a2 + BASE - 1))) = (a1 + a2 + BASE - 1) % BASE := by
    rw [hB]; split_ifs <;> omega
  have e2 : (if (if M + (s1 + s2 + BASE - r) ≥ BASE <<< 1
        then M + (s1 + s2 + BASE - r) - BASE <<< 1 else M + (s1 + s2 + BASE - r)) ≥ BASE
      then (if M + (s1 + s2 + BASE - r) ≥ BASE <<< 1
        then M + (s1 + s2 + BASE - r) - BASE <<< 1 else M + (s1 + s2 + BASE - r)) - BASE
      else (if M + (s1 + s2 + BASE - r) ≥ BASE <<< 1
        then M + (s1 + s2 + BASE - r) - BASE <<< 1 else M + (s1 + s2 + BASE - r))) =
      (M + s1 + s2 + BASE - r) % BASE := by
    rw [hB1, hB]; split_ifs <;> omega
  rw [e1, e2]
  have hlt1 : (a1 + a2 + BASE - 1) % BASE < BASE := Nat.mod_lt _ (by decide)
  have hlt2 : (M + s1 + s2 + BASE - r) % BASE < BASE := Nat.mod_lt _ (by decide)
  have hp := wr_pack (wrapUL w) (fun x hx => wrapUL_of_lt w hw x hx)
    ((a1 + a2 + BASE - 1) % BASE, (M + s1 + s2 + BASE - r) % BASE) hlt1 hlt2
  exact hp

theorem eq_of_cast_eq (x y : Nat) (h : ((x % BASE : Nat) : ZMod BASE) = ((y % BASE : Nat) : ZMod BASE)) :
    x % BASE = y % BASE := by
  have := (ZMod.natCast_eq_natCast_iff' _ _ _).mp h
  simpa using this

theorem cast_combA (a1 a2 : Nat) :
    (((a1 + a2 + BASE - 1) % BASE : Nat) : ZMod BASE) = (a1 : ZMod BASE) + a2 - 1 := by
  rw [ZMod.natCast_mod, Nat.cast_sub (by simp only [BASE]; omega)]
  push_cast
  rw [ZMod.natCast_self]
  ring

theorem cast_combS (M s1 s2 r : Nat) (hr : r < BASE) :
    (((M + s1 + s2 + BASE - r) % BASE : Nat) : ZMod BASE) = (M : ZMod BASE) + s1 + s2 - r := by
  rw [ZMod.natCast_mod, Nat.cast_sub (by omega)]
  push_cast
  rw [ZMod.natCast_self]
  ring

theorem acc_shift (bs : List Byte) : ∀ (st : Nat × Nat) (d e : Nat),
    acc (st.1 + d, st.2 + e) bs = ((acc st bs).1 + d, (acc st bs).2 + e + bs.length * d) := by
  induction bs with
  | nil => intro st d e; simp [acc_nil]
  | cons b bs ih =>
    intro st d e
    rw [acc_cons, acc_cons]
    have h := ih (st.1 + b.val, st.2 + (st.1 + b.val)) d (e + d)
    simp only at h ⊢
    have e1 : st.1 + d + b.val = st.1 + b.val + d := by omega
    have e2 : st.2 + e + (st.1 + b.val + d) = st.2 + (st.1 + b.val) + (e + d) := by omega
    rw [e1, e2, h, List.length_cons]
    ext
    · rfl
    · simp only
      ring

theorem acc_one_pos (bs : List Byte) : 1 ≤ (acc (1, 0) bs).1 := (acc_ge bs (1, 0)).1

theorem run_init (bs : List Byte) :
    run (1, 0) bs = ((acc (1, 0) bs).1 % BASE, (acc (1, 0) bs).2 % BASE) :=
  (acc_mod_of_lt bs (1, 0) (by decide) (by decide)).symm

theorem unpack_one : unpack 1 = (1, 0) := by decide

theorem valid_one : Valid 1 := by decide

theorem valid_pack (st : Nat × Nat) (h1 : st.1 < BASE) (h2 : st.2 < BASE) : Valid (pack st) := by
  have := unpack_pack st h1 h2
  unfold unpack at this
  unfold Valid
  rw [Prod.ext_iff] at this
  simp only at this
  rw [this.1, this.2]
  exact ⟨h1, h2⟩

theorem adler32_eq (w : Nat) (hw : 32 ≤ w) (s : Nat) (hs : Valid s) (bs : List Byte) (len : Nat)
    (hlen : len ≤ bs.length) :
    adler32 w s (some bs) len = some (pack (run (unpack s) (bs.take len))) :=
  adler32_gen_eq (wrapUL w) MOD MOD28 (fun x hx => wrapUL_of_lt w hw x hx)
    (fun _ _ => rfl) (fun _ _ => rfl) s bs len hs hlen

theorem adler32_unbounded_eq (s : Nat) (hs : Valid s) (bs : List Byte) (len : Nat)
    (hlen : len ≤ bs.length) :
    adler32_unbounded s (some bs) len = some (pack (run (unpack s) (bs.take len))) :=
  adler32_gen_eq id MOD MOD28 (fun _ _ => rfl) (fun _ _ => rfl) (fun _ _ => rfl) s bs len hs hlen

theorem adler32_full (w : Nat) (hw : 32 ≤ w) (s : Nat) (hs : Valid s) (bs : List Byte) :
    adler32 w s (some bs) bs.length = some (pack (run (unpack s) bs)) := by
  rw [adler32_eq w hw s hs bs bs.length (le_refl _), List.take_length]

theorem unpack_lt (s : Nat) (hs : Valid s) : (unpack s).1 < BASE ∧ (unpack s).2 < BASE := hs

/-- The per-byte fold of `A ++ B` from the per-byte folds of `A` and of `B`. -/
theorem combine_run (A B : List Byte) :
    run (1, 0) (A ++ B) =
      (((run (1, 0) A).1 + (run (1, 0) B).1 + BASE - 1) % BASE,
        ((B.length % BASE * (run (1, 0) A).1) % BASE + (run (1, 0) A).2 + (run (1, 0) B).2
          + BASE - B.length % BASE) % BASE) := by
  rw [run_init (A ++ B), run_init A, run_init B, acc_append]
  have ha := acc_one_pos A
  have hb := acc_one_pos B
  have hsh := acc_shift B (1, 0) ((acc (1, 0) A).1 - 1) (acc (1, 0) A).2
  have e1 : ((1 : Nat), (0 : Nat)).1 + ((acc (1, 0) A).1 - 1) = (acc (1, 0) A).1 := by
    simp only; omega
  have e2 : ((1 : Nat), (0 : Nat)).2 + (acc (1, 0) A).2 = (acc (1, 0) A).2 := by simp
  rw [e1, e2] at hsh
  rw [hsh]
  generalize acc (1, 0) A = x at ha ⊢
  generalize acc (1, 0) B = y at hb ⊢
  obtain ⟨a, s⟩ := x
  obtain ⟨c, t⟩ := y
  simp only at ha hb ⊢
  rw [Prod.mk.injEq]
  refine ⟨?_, ?_⟩
  · simp only [BASE]; omega
  · have hr : B.length % BASE < BASE := Nat.mod_lt _ (by decide)
    have h := cast_combS ((B.length % BASE * (a % BASE)) % BASE) (s % BASE) (t % BASE)
      (B.length % BASE) hr
    apply eq_of_cast_eq
    rw [h]
    simp only [ZMod.natCast_mod, Nat.cast_mul, Nat.cast_add, Nat.cast_sub ha, Nat.cast_one]
    ring

/-! ## The closed form of the two sums -/

theorem byteSum_cons (b : Byte) (bs : List Byte) : byteSum (b :: bs) = b.val + byteSum bs := by
  simp [byteSum]

/-- The unreduced sums in closed form. -/
theorem acc_closed (bs : List Byte) : ∀ st : Nat × Nat,
    acc st bs = (st.1 + byteSum bs,
      st.2 + ((List.range bs.length).map (fun k => st.1 + byteSum (bs.take (k + 1)))).sum) := by
  induction bs with
  | nil => intro st; simp [acc_nil, byteSum]
  | cons b bs ih =>
    intro st
    rw [acc_cons, ih]
    simp only [List.length_cons, List.range_succ_eq_map, List.map_cons, List.sum_cons,
      List.map_map, byteSum_cons, List.take_succ_cons, List.take_zero]
    rw [Prod.mk.injEq]
    refine ⟨by omega, ?_⟩
    have e : ((fun k => st.1 + (b.val + byteSum (List.take k bs))) ∘ Nat.succ) =
        (fun k => st.1 + b.val + byteSum (List.take (k + 1) bs)) := by
      funext k
      simp only [Function.comp, Nat.succ_eq_add_one]
      omega
    have e0 : byteSum ([] : List Byte) = 0 := rfl
    rw [e, e0]
    omega

theorem run_closed (bs : List Byte) : run (1, 0) bs = (sum1Spec bs, sum2Spec bs) := by
  rw [run_init, acc_closed]
  simp only [sum1Spec, sum2Spec, leadSum, Nat.zero_add]

/-! ## Associativity of the combiner -/

theorem combine_valid (w : Nat) (hw : 32 ≤ w) (c1 c2 : Nat) (h1 : Valid c1) (h2 : Valid c2)
    (n : Nat) : Valid (adler32_combine_ w c1 c2 (n : Int)) := by
  rw [combine_eq w hw c1 c2 h1 h2 n]
  exact valid_pack _ (Nat.mod_lt _ (by decide)) (Nat.mod_lt _ (by decide))

theorem combine_assoc_nat (w : Nat) (hw : 32 ≤ w) (c0 c1 c2 : Nat) (h0 : Valid c0)
    (h1 : Valid c1) (h2 : Valid c2) (n1 n2 : Nat) :
    adler32_combine_ w (adler32_combine_ w c0 c1 (n1 : Int)) c2 (n2 : Int) =
      adler32_combine_ w c0 (adler32_combine_ w c1 c2 (n2 : Int)) ((n1 + n2 : Nat) : Int) := by
  have v01 := combine_valid w hw c0 c1 h0 h1 n1
  have v12 := combine_valid w hw c1 c2 h1 h2 n2
  rw [combine_eq w hw _ c2 v01 h2 n2, combine_eq w hw c0 _ h0 v12 (n1 + n2),
    combine_eq w hw c0 c1 h0 h1 n1, combine_eq w hw c1 c2 h1 h2 n2,
    unpack_pack _ (Nat.mod_lt _ (by decide)) (Nat.mod_lt _ (by decide)),
    unpack_pack _ (Nat.mod_lt _ (by decide)) (Nat.mod_lt _ (by decide))]
  have hr1 : n1 % BASE < BASE := Nat.mod_lt _ (by decide)
  have hr2 : n2 % BASE < BASE := Nat.mod_lt _ (by decide)
  have hr12 : (n1 + n2) % BASE < BASE := Nat.mod_lt _ (by decide)
  obtain ⟨ha0, hs0⟩ := unpack_lt c0 h0
  obtain ⟨ha1, hs1⟩ := unpack_lt c1 h1
  obtain ⟨ha2, hs2⟩ := unpack_lt c2 h2
  generalize unpack c0 = u0 at ha0 hs0 ⊢
  generalize unpack c1 = u1 at ha1 hs1 ⊢
  generalize unpack c2 = u2 at ha2 hs2 ⊢
  obtain ⟨a0, s0⟩ := u0
  obtain ⟨a1, s1⟩ := u1
  obtain ⟨a2, s2⟩ := u2
  simp only at ha0 hs0 ha1 hs1 ha2 hs2 ⊢
  refine congrArg pack ?_
  rw [Prod.mk.injEq]
  refine ⟨?_, ?_⟩
  · simp only [BASE] at ha0 ha1 ha2 ⊢
    omega
  · apply eq_of_cast_eq
    have hA : ((a0 + a1 + BASE - 1 : Nat) : ZMod BASE) = (a0 : ZMod BASE) + a1 - 1 := by
      rw [← cast_combA, ZMod.natCast_mod]
    simp only [cast_combS _ _ _ _ hr1, cast_combS _ _ _ _ hr2, cast_combS _ _ _ _ hr12,
      ZMod.natCast_mod, Nat.cast_mul, hA, Nat.cast_add]
    ring

/-! ## The accumulator: claims -/

/-- C1: combining the checksums of two adjacent segments `A` and `B` with the byte length of
`B` gives the checksum of `A ++ B`; all three calls of `adler32` return. -/
theorem adler32_combine_concat (w : Nat) (hw : 32 ≤ w) (A B : List Byte) :
    ∃ cA cB, adler32 w 1 (some A) A.length = some cA ∧
      adler32 w 1 (some B) B.length = some cB ∧
      adler32 w 1 (some (A ++ B)) (A ++ B).length =
        some (adler32_combine_ w cA cB (B.length : Int)) := by
  refine ⟨pack (run (1, 0) A), pack (run (1, 0) B), ?_, ?_, ?_⟩
  · rw [adler32_full w hw 1 valid_one, unpack_one]
  · rw [adler32_full w hw 1 valid_one, unpack_one]
  · have hA := run_lt A (1, 0) (by decide) (by decide)
    have hB := run_lt B (1, 0) (by decide) (by decide)
    rw [adler32_full w hw 1 valid_one, unpack_one,
      combine_eq w hw _ _ (valid_pack _ hA.1 hA.2) (valid_pack _ hB.1 hB.2),
      unpack_pack _ hA.1 hA.2, unpack_pack _ hB.1 hB.2, combine_run]

/-- Instance of C1 at `A = [1, 2]`, `B = [3]`. -/
theorem adler32_combine_concat_witness :
    32 ≤ 32 ∧ ∃ cA cB, adler32 32 1 (some [1, 2]) 2 = some cA ∧
      adler32 32 1 (some [3]) 1 = some cB ∧
      adler32 32 1 (some [1, 2, 3]) 3 = some (adler32_combine_ 32 cA cB 1) :=
  ⟨by decide, adler32_combine_concat 32 (by decide) [1, 2] [3]⟩

/-- C2: from a valid packed state `s`, feeding `A` and then `B` gives the same checksum as
feeding `A ++ B` in one call, whatever the lengths of `A` and `B`; every call returns. -/
theorem adler32_chunk_independent (w : Nat) (hw : 32 ≤ w) (s : Nat) (hs : Valid s)
    (A B : List Byte) :
    ∃ s1 r, adler32 w s (some A) A.length = some s1 ∧
      adler32 w s1 (some B) B.length = some r ∧
      adler32 w s (some (A ++ B)) (A ++ B).length = some r := by
  have hA := run_lt A (unpack s) hs.1 hs.2
  refine ⟨pack (run (unpack s) A), pack (run (unpack s) (A ++ B)), ?_, ?_, ?_⟩
  · exact adler32_full w hw s hs A
  · rw [adler32_full w hw _ (valid_pack _ hA.1 hA.2), unpack_pack _ hA.1 hA.2, run_append]
  · exact adler32_full w hw s hs (A ++ B)

/-- Instance of C2 at the state `0x00620062` and the split `[7]`, `[8, 9]`. -/
theorem adler32_chunk_independent_witness :
    32 ≤ 32 ∧ Valid 0x00620062 ∧ ∃ s1 r, adler32 32 0x00620062 (some [7]) 1 = some s1 ∧
      adler32 32 s1 (some [8, 9]) 2 = some r ∧
      adler32 32 0x00620062 (some [7, 8, 9]) 3 = some r :=
  ⟨by decide, by decide, adler32_chunk_independent 32 (by decide) 0x00620062 (by decide) [7] [8, 9]⟩

/-- C3: `adler32(1, b)` returns `sum1 | (sum2 << 16)` with `sum1 = (1 + sum of the bytes) mod
65521` and `sum2 = (sum over k = 1..n of (1 + b_0 + ... + b_{k-1})) mod 65521`, which is also
the per-byte step folded from `(1, 0)` and packed. -/
theorem adler32_closed_form (w : Nat) (hw : 32 ≤ w) (bs : List Byte) :
    adler32 w 1 (some bs) bs.length = some (sum1Spec bs ||| (sum2Spec bs <<< 16)) ∧
    adler32 w 1 (some bs) bs.length = some (pack (bs.foldl step (1, 0))) := by
  have h := adler32_full w hw 1 valid_one bs
  rw [unpack_one] at h
  refine ⟨?_, h⟩
  rw [h, run_closed]
  rfl

/-- Instance of C3 at the bytes `[87, 105]`. -/
theorem adler32_closed_form_witness :
    32 ≤ 32 ∧
    adler32 32 1 (some [87, 105]) 2 =
      some (sum1Spec [87, 105] ||| (sum2Spec [87, 105] <<< 16)) ∧
    adler32 32 1 (some [87, 105]) 2 = some (pack (List.foldl step (1, 0) [87, 105])) :=
  ⟨by decide, adler32_closed_form 32 (by decide) [87, 105]⟩

/-- C4: from a valid packed state no operation of `adler32` carries out of 32 bits: under any
word arithmetic that is exact below `2 ^ 32`, and so under 32-bit wrap-around, `adler32`
returns what it returns over unbounded integers. -/
theorem adler32_no_overflow (wr : Nat → Nat) (hwr : ∀ x, x < 2 ^ 32 → wr x = x)
    (s : Nat) (hs : Valid s) (bs : List Byte) (len : Nat) (hlen : len ≤ bs.length) :
    adler32_gen wr MOD MOD28 s (some bs) len = adler32_unbounded s (some bs) len ∧
    adler32 32 s (some bs) len = adler32_unbounded s (some bs) len ∧
    (adler32_unbounded s (some bs) len).isSome = true := by
  rw [adler32_unbounded_eq s hs bs len hlen, adler32_eq 32 (le_refl _) s hs bs len hlen,
    adler32_gen_eq wr MOD MOD28 hwr (fun _ _ => rfl) (fun _ _ => rfl) s bs len hs hlen]
  exact ⟨rfl, rfl, rfl⟩

/-- Instance of C4 at 32-bit wrap-around and the buffer of 5552 bytes `0xFF`. -/
theorem adler32_no_overflow_witness :
    (∀ x, x < 2 ^ 32 → wrapUL 32 x = x) ∧ Valid 1 ∧
    5552 ≤ (List.replicate 5552 (255 : Byte)).length ∧
    adler32_gen (wrapUL 32) MOD MOD28 1 (some (List.replicate 5552 255)) 5552 =
      adler32_unbounded 1 (some (List.replicate 5552 255)) 5552 ∧
    adler32 32 1 (some (List.replicate 5552 255)) 5552 =
      adler32_unbounded 1 (some (List.replicate 5552 255)) 5552 ∧
    (adler32_unbounded 1 (some (List.replicate 5552 255)) 5552).isSome = true :=
  ⟨wrapUL_of_lt 32 (le_refl _), by decide, le_of_eq (List.length_replicate 5552 255).symm,
    adler32_no_overflow (wrapUL 32) (wrapUL_of_lt 32 (le_refl _)) 1 (by decide)
      (List.replicate 5552 255) 5552 (le_of_eq (List.length_replicate 5552 255).symm)⟩

/-- C5: from a valid packed state, `adler32` on any buffer returns a valid packed state: low
and high 16 bits both below 65521 and no bit above bit 31. -/
theorem adler32_result_valid (w : Nat) (hw : 32 ≤ w) (s : Nat) (hs : Valid s) (bs : List Byte)
    (len : Nat) (hlen : len ≤ bs.length) :
    ∃ r, adler32 w s (some bs) len = some r ∧ Valid r ∧ r < 2 ^ 32 := by
  have h := run_lt (bs.take len) (unpack s) hs.1 hs.2
  exact ⟨_, adler32_eq w hw s hs bs len hlen, valid_pack _ h.1 h.2, pack_lt _ h.1 h.2⟩

/-- Instance of C5 at the largest valid state and two bytes `0xFF`. -/
theorem adler32_result_valid_witness :
    32 ≤ 32 ∧ Valid 0xFFF0FFF0 ∧ 2 ≤ ([255, 255] : List Byte).length ∧
    ∃ r, adler32 32 0xFFF0FFF0 (some [255, 255]) 2 = some r ∧ Valid r ∧ r < 2 ^ 32 :=
  ⟨by decide, by decide, by decide,
    adler32_result_valid 32 (by decide) 0xFFF0FFF0 (by decide) [255, 255] 2 (by decide)⟩

/-! ## The combiner and the special cases: claims -/

/-- C6: for every `adler1`, `adler2` and every negative `len2`, `adler32_combine_`,
`adler32_combine` and `adler32_combine64` return `0xFFFFFFFF`. -/
theorem adler32_combine_negative (w : Nat) (adler1 adler2 : Nat) (len2 : Int) (h : len2 < 0) :
    adler32_combine_ w adler1 adler2 len2 = 0xFFFFFFFF ∧
    adler32_combine w adler1 adler2 len2 = 0xFFFFFFFF ∧
    adler32_combine64 w adler1 adler2 len2 = 0xFFFFFFFF := by
  have e : adler32_combine_ w adler1 adler2 len2 = 0xFFFFFFFF := by
    unfold adler32_combine_ adler32_combine_gen
    rw [if_pos h]
  exact ⟨e, e, e⟩

/-- Instance of C6 at `len2 = -1`. -/
theorem adler32_combine_negative_witness :
    (-1 : Int) < 0 ∧ adler32_combine_ 32 0x11E60398 0x00620062 (-1) = 0xFFFFFFFF ∧
    adler32_combine 32 0x11E60398 0x00620062 (-1) = 0xFFFFFFFF ∧
    adler32_combine64 32 0x11E60398 0x00620062 (-1) = 0xFFFFFFFF :=
  ⟨by decide, adler32_combine_negative 32 0x11E60398 0x00620062 (-1) (by decide)⟩

/-- C7, as the claim states it, fails: with `len == 1` the byte `buf[0]` is read before the
null check, so `adler32(1, Z_NULL, 1)` reads through the null pointer and does not return 1. -/
theorem adler32_null_len_one_faults :
    adler32 32 1 none 1 = none ∧ adler32 32 1 none 1 ≠ some 1 := by decide

/-- C7, amended: for every state `adler` and every length `len` other than 1,
`adler32(adler, Z_NULL, len)` returns 1. -/
theorem adler32_null (w : Nat) (adler : Nat) (len : Nat) (h : len ≠ 1) :
    adler32 w adler none len = some 1 := by
  unfold adler32 adler32_gen
  simp only [if_neg h]

/-- Instance of the amended C7 at `len = 0`. -/
theorem adler32_null_witness : (0 : Nat) ≠ 1 ∧ adler32 32 0xDEADBEEF none 0 = some 1 :=
  ⟨by decide, adler32_null 32 0xDEADBEEF 0 (by decide)⟩

/-- C8, as the claim states it, fails: the state `0xFFFF`, whose low half is not below
65521, is not returned unchanged for an empty input, it is reduced to 14. -/
theorem adler32_empty_invalid_state :
    adler32 32 0xFFFF (some []) 0 = some 14 ∧ adler32 32 0xFFFF (some []) 0 ≠ some 0xFFFF := by
  decide

/-- C8, amended: for every valid 32-bit state `s` (both halves below 65521) and a non-null
buffer with `len = 0`, `adler32` returns `s` unchanged. -/
theorem adler32_empty (w : Nat) (hw : 32 ≤ w) (s : Nat) (hs : Valid s) (h32 : s < 2 ^ 32)
    (bs : List Byte) : adler32 w s (some bs) 0 = some s := by
  rw [adler32_eq w hw s hs bs 0 (Nat.zero_le _), List.take_zero, run_nil, pack_unpack s h32]

/-- Instance of the amended C8 at the initial value 1. -/
theorem adler32_empty_witness :
    32 ≤ 32 ∧ Valid 1 ∧ 1 < 2 ^ 32 ∧ adler32 32 1 (some []) 0 = some 1 :=
  ⟨by decide, by decide, by decide, adler32_empty 32 (by decide) 1 (by decide) (by decide) []⟩

/-- C9: for every `adler1`, `adler2` and every `len2 >= 0`, `adler32_combine_` returns the
same value for `len2` and for `len2 mod 65521`. -/
theorem adler32_combine_len_mod (w : Nat) (adler1 adler2 : Nat) (len2 : Int) (h : 0 ≤ len2) :
    adler32_combine_ w adler1 adler2 len2 = adler32_combine_ w adler1 adler2 (len2 % 65521) := by
  have h1 : ¬ (len2 < 0) := by omega
  have h2 : ¬ (len2 % 65521 < 0) := by omega
  have e : MOD63 (len2 % 65521) = MOD63 len2 := by
    unfold MOD63
    rw [Int.tmod_eq_emod (by omega) (by decide), Int.tmod_eq_emod h (by decide)]
    simp only [BASE, Nat.cast_ofNat]
    omega
  unfold adler32_combine_ adler32_combine_gen
  simp only [if_neg h1, if_neg h2, e]

/-- Instance of C9 at `len2 = 2 ^ 40`. -/
theorem adler32_combine_len_mod_witness :
    (0 : Int) ≤ 2 ^ 40 ∧
    adler32_combine_ 32 0x11E60398 0x00620062 (2 ^ 40) =
      adler32_combine_ 32 0x11E60398 0x00620062 (2 ^ 40 % 65521) :=
  ⟨by decide, adler32_combine_len_mod 32 0x11E60398 0x00620062 (2 ^ 40) (by decide)⟩

/-- C10: combination is associative: for valid checksums `c0`, `c1`, `c2` and lengths
`len1, len2 >= 0`, combining `c0` with `c1` and the result with `c2` equals combining `c0`
with the combination of `c1` and `c2`, at length `len1 + len2`. -/
theorem adler32_combine_assoc (w : Nat) (hw : 32 ≤ w) (c0 c1 c2 : Nat) (h0 : Valid c0)
    (h1 : Valid c1) (h2 : Valid c2) (len1 len2 : Int) (hl1 : 0 ≤ len1) (hl2 : 0 ≤ len2) :
    adler32_combine_ w (adler32_combine_ w c0 c1 len1) c2 len2 =
      adler32_combine_ w c0 (adler32_combine_ w c1 c2 len2) (len1 + len2) := by
  obtain ⟨n1, rfl⟩ := Int.eq_ofNat_of_zero_le hl1
  obtain ⟨n2, rfl⟩ := Int.eq_ofNat_of_zero_le hl2
  have := combine_assoc_nat w hw c0 c1 c2 h0 h1 h2 n1 n2
  rw [Nat.cast_add] at this
  exact this

/-- Instance of C10 at lengths 70000 and 5. -/
theorem adler32_combine_assoc_witness :
    32 ≤ 32 ∧ Valid 0x11E60398 ∧ Valid 0x00620062 ∧ Valid 0xFFF0FFF0 ∧
    (0 : Int) ≤ 70000 ∧ (0 : Int) ≤ 5 ∧
    adler32_combine_ 32 (adler32_combine_ 32 0x11E60398 0x00620062 70000) 0xFFF0FFF0 5 =
      adler32_combine_ 32 0x11E60398 (adler32_combine_ 32 0x00620062 0xFFF0FFF0 5) (70000 + 5) :=
  ⟨by decide, by decide, by decide, by decide, by decide, by decide,
    adler32_combine_assoc 32 (by decide) 0x11E60398 0x00620062 0xFFF0FFF0 (by decide)
      (by decide) (by decide) 70000 5 (by decide) (by decide)⟩

/-! ## The reductions of the `NO_DIVIDE` build are exact -/

/-- On a value below `2 ^ 32`, `CHOP` folds the high half with weight 15, without wrapping. -/
theorem CHOP_eq (w : Nat) (hw : 32 ≤ w) (a : Nat) (ha : a < 2 ^ 32) :
    CHOP w a = a % 65536 + 15 * (a / 65536) := by
  unfold CHOP
  simp only [and_ffff, shr16, Nat.shiftLeft_eq]
  have ht : a / 65536 < 65536 := by omega
  rw [wrapUL_of_lt w hw (a / 65536 * 2 ^ 4) (by omega),
    sub_wrap w hw (a / 65536 * 2 ^ 4) (a / 65536) (by omega) (by omega),
    wrapUL_of_lt w hw _ (by omega)]
  omega

theorem MOD28_NO_DIVIDE_eq (w : Nat) (hw : 32 ≤ w) (a : Nat) (ha : a < 2 ^ 28) :
    MOD28_NO_DIVIDE w a = a % BASE := by
  unfold MOD28_NO_DIVIDE
  simp only [CHOP_eq w hw a (by omega), BASE]
  split <;> omega

theorem MOD_NO_DIVIDE_eq (w : Nat) (hw : 32 ≤ w) (a : Nat) (ha : a < 2 ^ 32) :
    MOD_NO_DIVIDE w a = a % BASE := by
  unfold MOD_NO_DIVIDE
  simp only [CHOP_eq w hw a ha]
  rw [ MOD28_NO_DIVIDE_eq w hw _ (by omega)]
  simp only [BASE]
  omega

theorem int_fold32 (n : Nat) :
    Int.land (n : Int) 0xffffffff +
        ((((n : Int) >>> (32 : Nat)) <<< (8 : Int)) - (((n : Int) >>> (32 : Nat)) <<< (5 : Int))
          + ((n : Int) >>> (32 : Nat))) =
      ((n % 2 ^ 32 + 225 * (n / 2 ^ 32) : Nat) : Int) := by
  have e1 : Int.land (n : Int) 0xffffffff = ((n &&& 0xffffffff : Nat) : Int) := rfl
  have e2 : (n : Int) >>> (32 : Nat) = ((n >>> 32 : Nat) : Int) := rfl
  have e3 : ∀ m : Nat, (m : Int) <<< (8 : Int) = ((m <<< 8 : Nat) : Int) :=
    fun m => Int.shiftLeft_coe_nat m 8
  have e4 : ∀ m : Nat, (m : Int) <<< (5 : Int) = ((m <<< 5 : Nat) : Int) :=
    fun m => Int.shiftLeft_coe_nat m 5
  have e5 : n &&& 0xffffffff = n % 2 ^ 32 := by
    have := Nat.and_pow_two_sub_one_eq_mod n 32
    simpa using this
  rw [e1, e2, e3, e4, e5, Nat.shiftRight_eq_div_pow, Nat.shiftLeft_eq, Nat.shiftLeft_eq]
  omega

theorem int_fold16 (n : Nat) :
    Int.land (n : Int) 0xffff +
        ((((n : Int) >>> (16 : Nat)) <<< (4 : Int)) - ((n : Int) >>> (16 : Nat))) =
      ((n % 65536 + 15 * (n / 65536) : Nat) : Int) := by
  have e1 : Int.land (n : Int) 0xffff = ((n &&& 0xffff : Nat) : Int) := rfl
  have e2 : (n : Int) >>> (16 : Nat) = ((n >>> 16 : Nat) : Int) := rfl
  have e3 : ∀ m : Nat, (m : Int) <<< (4 : Int) = ((m <<< 4 : Nat) : Int) :=
    fun m => Int.shiftLeft_coe_nat m 4
  rw [e1, e2, e3, and_ffff, shr16, Nat.shiftLeft_eq]
  omega

theorem MOD63_NO_DIVIDE_eq (n : Nat) (hn : n < 2 ^ 63) :
    MOD63_NO_DIVIDE (n : Int) = ((n % BASE : Nat) : Int) := by
  unfold MOD63_NO_DIVIDE
  simp only [int_fold32, int_fold16, BASE]
  split <;> omega

/-! ## The blocks of `adler32` and the bound on `NMAX` -/

theorem not_valid_sentinel : ¬ Valid 0xFFFFFFFF := by decide

theorem nmaxBound_mono (m n : Nat) (h : m ≤ n) : nmaxBound m ≤ nmaxBound n := by
  unfold nmaxBound
  have h1 : 255 * m * (m + 1) ≤ 255 * n * (n + 1) :=
    Nat.mul_le_mul (Nat.mul_le_mul_left _ h) (by omega)
  have h2 : (m + 1) * (BASE - 1) ≤ (n + 1) * (BASE - 1) := Nat.mul_le_mul_right _ (by omega)
  have h3 := Nat.div_le_div_right (c := 2) h1
  omega

theorem adler32_gen_one (wr md md28 : Nat → Nat) (adler : Nat) (bs : List Byte) :
    adler32_gen wr md md28 adler (some bs) 1 = adler32_one wr adler bs := by
  unfold adler32_gen adler32_one
  simp only [if_true]

theorem adler32_gen_short (wr md md28 : Nat → Nat) (adler : Nat) (bs : List Byte) (len : Nat)
    (h1 : len ≠ 1) (h16 : len < 16) :
    adler32_gen wr md md28 adler (some bs) len = adler32_short wr md28 adler bs len := by
  unfold adler32_gen adler32_short
  simp only [if_neg h1, if_pos h16]

/-- On one byte and a valid state, the `len < 16` block returns the packed per-byte step, for
any word arithmetic exact below `2 ^ 32` and any `MOD28` exact below `2 ^ 28`. -/
theorem adler32_short_one (wr md28 : Nat → Nat) (hwr : ∀ x, x < 2 ^ 32 → wr x = x)
    (hmd28 : ∀ x, x < 2 ^ 28 → md28 x = x % BASE) (s : Nat) (hs : Valid s) (b : Byte) :
    adler32_short wr md28 s [b] 1 = some (pack (step (unpack s) b)) := by
  obtain ⟨h1, h2⟩ := hs
  have hu : unpack s = (s &&& 0xffff, (s >>> 16) &&& 0xffff) := rfl
  rw [hu]
  unfold adler32_short
  generalize s &&& 0xffff = a at h1 ⊢
  generalize (s >>> 16) &&& 0xffff = t at h2 ⊢
  have hb : b.val < 256 := b.isLt
  simp only [BASE] at h1 h2
  have w1 : wr (a + b.val) = a + b.val := hwr _ (by omega)
  have w2 : wr (t + (a + b.val)) = t + (a + b.val) := hwr _ (by omega)
  simp only [byteLoop, w1, w2]
  have hlt := step_lt (a, t) b
  rw [← wr_pack wr hwr _ hlt.1 hlt.2, condSub_eq _ (by simp only [BASE]; omega),
    hmd28 _ (by omega)]
  simp only [step, BASE]
  have e : (t + (a + b.val)) % 65521 = (t + (a + b.val) % 65521) % 65521 := by omega
  rw [e]

/-! ## The combiner never produces the sentinel from a non-negative length -/

theorem shiftRight_or (a b k : Nat) : (a ||| b) >>> k = a >>> k ||| b >>> k := by
  apply Nat.eq_of_testBit_eq
  intro i
  simp only [Nat.testBit_shiftRight, Nat.testBit_or]

/-- A packed result whose sums are below `2 ^ 17 - 1` is `0xFFFFFFFF` only when both sums are
`65535`. -/
theorem or_eq_sentinel (w : Nat) (hw : 32 ≤ w) (x y : Nat) (hx : x < 131071) (hy : y < 131071)
    (h : x ||| wrapUL w (y <<< 16) = 0xFFFFFFFF) : x = 65535 ∧ y = 65535 := by
  have hX : wrapUL w (y <<< 16) = if w = 32 then y * 65536 % 2 ^ 32 else y * 65536 := by
    unfold wrapUL
    rw [shl16]
    split
    · rename_i h32; rw [h32]
    · rename_i h32
      have : 2 ^ 33 ≤ 2 ^ w := Nat.pow_le_pow_right (by decide) (by omega)
      exact Nat.mod_eq_of_lt (by omega)
  generalize wrapUL w (y <<< 16) = X at h hX
  have hlow : (x ||| X) &&& 0xffff = (0xFFFFFFFF : Nat) &&& 0xffff := by rw [h]
  have hhigh : (x ||| X) >>> 16 = (0xFFFFFFFF : Nat) >>> 16 := by rw [h]
  rw [Nat.and_distrib_right, and_ffff, and_ffff] at hlow
  rw [shiftRight_or, shr16, shr16] at hhigh
  have hX0 : X % 65536 = 0 := by
    rw [hX]; split <;> omega
  rw [hX0, Nat.or_zero] at hlow
  have hx1 : x = 65535 := by
    have : ((0xFFFFFFFF : Nat) &&& 0xffff) = 65535 := by decide
    omega
  have hx2 : x / 65536 = 0 := by omega
  rw [hx2, Nat.zero_or] at hhigh
  have : ((0xFFFFFFFF : Nat) >>> 16) = 65535 := by decide
  refine ⟨hx1, ?_⟩
  rw [hX] at hhigh
  split at hhigh <;> omega

/-- For a non-negative length the combiner never returns `0xFFFFFFFF`, valid checksums or not. -/
theorem combine_ne_sentinel (w : Nat) (hw : 32 ≤ w) (c1 c2 : Nat) (n : Nat) :
    adler32_combine_ w c1 c2 (n : Int) ≠ 0xFFFFFFFF := by
  unfold adler32_combine_ adler32_combine_gen
  have hneg : ¬ ((n : Int) < 0) := by omega
  simp only [if_neg hneg, rem_eq, MOD, and_ffff, shr16]
  have ha1 : c1 % 65536 < 65536 := Nat.mod_lt _ (by decide)
  have hh1 : c1 / 65536 % 65536 < 65536 := Nat.mod_lt _ (by decide)
  have ha2 : c2 % 65536 < 65536 := Nat.mod_lt _ (by decide)
  have hh2 : c2 / 65536 % 65536 < 65536 := Nat.mod_lt _ (by decide)
  generalize c1 % 65536 = a1 at ha1 ⊢
  generalize c1 / 65536 % 65536 = s1 at hh1 ⊢
  generalize c2 % 65536 = a2 at ha2 ⊢
  generalize c2 / 65536 % 65536 = s2 at hh2 ⊢
  have hr : n % BASE < 65521 := Nat.mod_lt _ (by decide)
  generalize n % BASE = r at hr ⊢
  have hprod : r * a1 < 2 ^ 32 := by
    have : r * a1 ≤ 65520 * 65535 := Nat.mul_le_mul (by omega) (by omega)
    omega
  rw [wrapUL_of_lt w hw _ hprod]
  have hB : BASE = 65521 := rfl
  have hB1 : BASE <<< 1 = 131042 := by decide
  have hM : (r * a1) % BASE ≤ 65520 := by rw [hB]; omega
  have hkey : a1 + a2 = 131057 → (r * a1) % BASE + s1 + s2 + BASE - r ≠ 262098 := by
    intro h12 h
    rw [hB] at h hM
    have hr13 : r ≤ 13 := by omega
    have hM182 : (r * a1) % 65521 ≤ 182 := by
      obtain ⟨k, rfl⟩ : ∃ k, a1 = 65521 + k := ⟨a1 - 65521, by omega⟩
      rw [Nat.mul_add, Nat.add_comm, Nat.add_mul_mod_self_right]
      have : r * k ≤ 13 * 14 := Nat.mul_le_mul hr13 (by omega)
      exact le_trans (Nat.mod_le _ _) this
    omega
  generalize (r * a1) % BASE = M at hM hkey ⊢
  rw [wrapUL_of_lt w hw (a2 + BASE - 1) (by omega),
    wrapUL_of_lt w hw (a1 + (a2 + BASE - 1)) (by omega),
    sub_wrap w hw (s1 + s2 + BASE) r (by omega) (by omega),
    wrapUL_of_lt w hw (M + (s1 + s2 + BASE - r)) (by omega)]
  rw [hB1, hB] at *
  intro h
  split_ifs at h
  all_goals
    have hs := or_eq_sentinel w hw _ _ (by omega) (by omega) h
    omega

/-! ## Validity of combined checksums, known vectors, `NMAX`, `NO_DIVIDE`: claims -/

/-- C11: for valid checksums `adler1`, `adler2` and `len2 >= 0`, the result of
`adler32_combine_` has its low and its high 16 bits below 65521, so it is not the sentinel
`0xFFFFFFFF`. -/
theorem adler32_combine_result_valid (w : Nat) (hw : 32 ≤ w) (adler1 adler2 : Nat)
    (h1 : Valid adler1) (h2 : Valid adler2) (len2 : Int) (hl : 0 ≤ len2) :
    (adler32_combine_ w adler1 adler2 len2 &&& 0xffff < 65521 ∧
      (adler32_combine_ w adler1 adler2 len2 >>> 16) &&& 0xffff < 65521) ∧
    adler32_combine_ w adler1 adler2 len2 ≠ 0xFFFFFFFF := by
  obtain ⟨n, rfl⟩ := Int.eq_ofNat_of_zero_le hl
  have hv := combine_valid w hw adler1 adler2 h1 h2 n
  refine ⟨hv, ?_⟩
  intro h
  rw [h] at hv
  exact not_valid_sentinel hv

/-- Instance of C11 at two valid checksums and the length 70000. -/
theorem adler32_combine_result_valid_witness :
    32 ≤ 32 ∧ Valid 0x11E60398 ∧ Valid 0xFFF0FFF0 ∧ (0 : Int) ≤ 70000 ∧
    (adler32_combine_ 32 0x11E60398 0xFFF0FFF0 70000 &&& 0xffff < 65521 ∧
      (adler32_combine_ 32 0x11E60398 0xFFF0FFF0 70000 >>> 16) &&& 0xffff < 65521) ∧
    adler32_combine_ 32 0x11E60398 0xFFF0FFF0 70000 ≠ 0xFFFFFFFF :=
  ⟨by decide, by decide, by decide, by decide,
    adler32_combine_result_valid 32 (by decide) 0x11E60398 0xFFF0FFF0 (by decide) (by decide)
      70000 (by decide)⟩

/-- C12: the known vectors: `adler32(1, empty) = 0x00000001`, `adler32(1, "a") = 0x00620062`
and `adler32(1, "Wikipedia") = 0x11E60398`. -/
theorem adler32_known_vectors (w : Nat) (hw : 32 ≤ w) :
    adler32 w 1 (some []) 0 = some 0x00000001 ∧
    adler32 w 1 (some [0x61]) 1 = some 0x00620062 ∧
    adler32 w 1 (some [0x57, 0x69, 0x6B, 0x69, 0x70, 0x65, 0x64, 0x69, 0x61]) 9 =
      some 0x11E60398 := by
  refine ⟨?_, ?_, ?_⟩
  · rw [adler32_eq w hw 1 valid_one [] 0 (by decide)]
    decide
  · rw [adler32_eq w hw 1 valid_one [0x61] 1 (by decide)]
    decide
  · rw [adler32_eq w hw 1 valid_one _ 9 (by decide)]
    decide

/-- Instance of C12 on a 32-bit `unsigned long`. -/
theorem adler32_known_vectors_witness :
    32 ≤ 32 ∧ adler32 32 1 (some []) 0 = some 0x00000001 ∧
    adler32 32 1 (some [0x61]) 1 = some 0x00620062 ∧
    adler32 32 1 (some [0x57, 0x69, 0x6B, 0x69, 0x70, 0x65, 0x64, 0x69, 0x61]) 9 =
      some 0x11E60398 :=
  ⟨by decide, adler32_known_vectors 32 (by decide)⟩

/-- C13: `NMAX = 5552` is the largest `n` with `255n(n+1)/2 + (n+1)(BASE-1) <= 2^32 - 1`: the
inequality holds at `NMAX` and at every smaller `n`, fails at `NMAX + 1`, and every `n` at
which it holds is at most `NMAX`. -/
theorem NMAX_largest :
    NMAX = 5552 ∧ BASE = 65521 ∧
    nmaxBound NMAX ≤ 2 ^ 32 - 1 ∧
    (∀ n, n ≤ NMAX → nmaxBound n ≤ 2 ^ 32 - 1) ∧
    ¬ (nmaxBound (NMAX + 1) ≤ 2 ^ 32 - 1) ∧
    (∀ n, nmaxBound n ≤ 2 ^ 32 - 1 → n ≤ NMAX) := by
  have h0 : nmaxBound NMAX ≤ 2 ^ 32 - 1 := by decide
  have h1 : ¬ (nmaxBound (NMAX + 1) ≤ 2 ^ 32 - 1) := by decide
  refine ⟨rfl, rfl, h0, ?_, h1, ?_⟩
  · intro n hn
    exact le_trans (nmaxBound_mono n NMAX hn) h0
  · intro n hn
    by_contra hlt
    exact h1 (le_trans (nmaxBound_mono (NMAX + 1) n (by omega)) hn)

/-- C14: under `NO_DIVIDE`, `MOD(a)` equals `a mod 65521` for every `a < 2^32` and `MOD28(a)`
equals `a mod 65521` for every `a < 2^28`, and for every valid state and every byte buffer
`adler32` built with `NO_DIVIDE` returns the value `adler32` built with `%` returns. -/
theorem adler32_NO_DIVIDE_exact (w : Nat) (hw : 32 ≤ w) (a : Nat) (s : Nat) (hs : Valid s)
    (bs : List Byte) (len : Nat) (hlen : len ≤ bs.length) :
    (a < 2 ^ 32 → MOD_NO_DIVIDE w a = a % 65521) ∧
    (a < 2 ^ 28 → MOD28_NO_DIVIDE w a = a % 65521) ∧
    adler32_NO_DIVIDE w s (some bs) len = adler32 w s (some bs) len ∧
    (adler32_NO_DIVIDE w s (some bs) len).isSome = true := by
  have e : adler32_NO_DIVIDE w s (some bs) len =
      some (pack (run (unpack s) (bs.take len))) :=
    adler32_gen_eq (wrapUL w) (MOD_NO_DIVIDE w) (MOD28_NO_DIVIDE w)
      (fun x hx => wrapUL_of_lt w hw x hx) (fun x hx => MOD_NO_DIVIDE_eq w hw x hx)
      (fun x hx => MOD28_NO_DIVIDE_eq w hw x hx) s bs len hs hlen
  refine ⟨fun ha => MOD_NO_DIVIDE_eq w hw a ha, fun ha => MOD28_NO_DIVIDE_eq w hw a ha, ?_, ?_⟩
  · rw [e, adler32_eq w hw s hs bs len hlen]
  · rw [e]; rfl

/-- Instance of C14 at `a = 2^28 - 1`, the initial state and the bytes of "Wikipedia". -/
theorem adler32_NO_DIVIDE_exact_witness :
    32 ≤ 32 ∧ Valid 1 ∧
    9 ≤ ([0x57, 0x69, 0x6B, 0x69, 0x70, 0x65, 0x64, 0x69, 0x61] : List Byte).length ∧
    ((2 ^ 28 - 1 < 2 ^ 32 → MOD_NO_DIVIDE 32 (2 ^ 28 - 1) = (2 ^ 28 - 1) % 65521) ∧
    (2 ^ 28 - 1 < 2 ^ 28 → MOD28_NO_DIVIDE 32 (2 ^ 28 - 1) = (2 ^ 28 - 1) % 65521) ∧
    adler32_NO_DIVIDE 32 1 (some [0x57, 0x69, 0x6B, 0x69, 0x70, 0x65, 0x64, 0x69, 0x61]) 9 =
      adler32 32 1 (some [0x57, 0x69, 0x6B, 0x69, 0x70, 0x65, 0x64, 0x69, 0x61]) 9 ∧
    (adler32_NO_DIVIDE 32 1
      (some [0x57, 0x69, 0x6B, 0x69, 0x70, 0x65, 0x64, 0x69, 0x61]) 9).isSome = true) :=
  ⟨by decide, by decide, by decide,
    adler32_NO_DIVIDE_exact 32 (by decide) (2 ^ 28 - 1) 1 (by decide)
      [0x57, 0x69, 0x6B, 0x69, 0x70, 0x65, 0x64, 0x69, 0x61] 9 (by decide)⟩

/-- C15: under `NO_DIVIDE`, `MOD63(a)` equals `a mod 65521` for every `0 <= a < 2^63`, so
`adler32_combine_` built with `NO_DIVIDE` returns the value it returns built with `%`, for
every non-negative 64-bit length and all `adler1`, `adler2`. -/
theorem adler32_combine_NO_DIVIDE_exact (w : Nat) (hw : 32 ≤ w) (adler1 adler2 : Nat)
    (len2 : Int) (h0 : 0 ≤ len2) (h63 : len2 < 2 ^ 63) :
    MOD63_NO_DIVIDE len2 = len2 % 65521 ∧
    adler32_combine_NO_DIVIDE w adler1 adler2 len2 = adler32_combine_ w adler1 adler2 len2 := by
  obtain ⟨n, rfl⟩ := Int.eq_ofNat_of_zero_le h0
  have hn : n < 2 ^ 63 := by omega
  have e63 : MOD63_NO_DIVIDE (n : Int) = MOD63 (n : Int) := by
    rw [ MOD63_NO_DIVIDE_eq n hn]
    rfl
  refine ⟨?_, ?_⟩
  · rw [ MOD63_NO_DIVIDE_eq n hn]
    simp only [BASE]
    omega
  · unfold adler32_combine_NO_DIVIDE adler32_combine_ adler32_combine_gen
    have hneg : ¬ ((n : Int) < 0) := by omega
    simp only [if_neg hneg, e63, rem_eq]
    have hr : n % BASE < 65521 := Nat.mod_lt _ (by decide)
    have ha : adler1 &&& 0xffff < 65536 := by rw [and_ffff]; omega
    have hprod : n % BASE * (adler1 &&& 0xffff) < 2 ^ 32 := by
      have : n % BASE * (adler1 &&& 0xffff) ≤ 65520 * 65535 :=
        Nat.mul_le_mul (by omega) (by omega)
      omega
    rw [wrapUL_of_lt w hw _ hprod, MOD_NO_DIVIDE_eq w hw _ hprod]
    rfl

/-- Instance of C15 at the largest 64-bit length. -/
theorem adler32_combine_NO_DIVIDE_exact_witness :
    32 ≤ 32 ∧ (0 : Int) ≤ 2 ^ 63 - 1 ∧ (2 ^ 63 - 1 : Int) < 2 ^ 63 ∧
    (MOD63_NO_DIVIDE (2 ^ 63 - 1) = (2 ^ 63 - 1) % 65521 ∧
    adler32_combine_NO_DIVIDE 32 0x11E60398 0x00620062 (2 ^ 63 - 1) =
      adler32_combine_ 32 0x11E60398 0x00620062 (2 ^ 63 - 1)) :=
  ⟨by decide, by decide, by decide,
    adler32_combine_NO_DIVIDE_exact 32 (by decide) 0x11E60398 0x00620062 (2 ^ 63 - 1)
      (by decide) (by decide)⟩

/-- C16: for a valid state and one byte `b`, the `len == 1` block, which is what `adler32`
runs on a one-byte buffer, returns exactly what the `len < 16` block returns on that buffer,
with `MOD28` of either build; the `len < 16` block is what `adler32` runs for the other
lengths below 16. -/
theorem adler32_one_eq_short (w : Nat) (hw : 32 ≤ w) (s : Nat) (hs : Valid s) (b : Byte) :
    adler32 w s (some [b]) 1 = adler32_one (wrapUL w) s [b] ∧
    adler32_one (wrapUL w) s [b] = adler32_short (wrapUL w) MOD28 s [b] 1 ∧
    adler32_one (wrapUL w) s [b] = adler32_short (wrapUL w) (MOD28_NO_DIVIDE w) s [b] 1 ∧
    (adler32_one (wrapUL w) s [b]).isSome = true ∧
    (∀ (bs : List Byte) (len : Nat), len ≠ 1 ∧ len < 16 →
      adler32 w s (some bs) len = adler32_short (wrapUL w) MOD28 s bs len) := by
  have hwr : ∀ x, x < 2 ^ 32 → wrapUL w x = x := fun x hx => wrapUL_of_lt w hw x hx
  have e1 : adler32 w s (some [b]) 1 = adler32_one (wrapUL w) s [b] :=
    adler32_gen_one (wrapUL w) MOD MOD28 s [b]
  have e2 : adler32_one (wrapUL w) s [b] = some (pack (step (unpack s) b)) := by
    rw [← e1, adler32_eq w hw s hs [b] 1 (le_refl _)]
    rfl
  refine ⟨e1, ?_, ?_, ?_, ?_⟩
  · rw [e2, adler32_short_one (wrapUL w) MOD28 hwr (fun _ _ => rfl) s hs b]
  · rw [e2, adler32_short_one (wrapUL w) (MOD28_NO_DIVIDE w) hwr
      (fun x hx => MOD28_NO_DIVIDE_eq w hw x hx) s hs b]
  · rw [e2]; rfl
  · intro bs len h
    exact adler32_gen_short (wrapUL w) MOD MOD28 s bs len h.1 h.2

/-- Instance of C16 at the largest valid state and the byte `0xFF`. -/
theorem adler32_one_eq_short_witness :
    32 ≤ 32 ∧ Valid 0xFFF0FFF0 ∧
    (adler32 32 0xFFF0FFF0 (some [0xFF]) 1 = adler32_one (wrapUL 32) 0xFFF0FFF0 [0xFF] ∧
    adler32_one (wrapUL 32) 0xFFF0FFF0 [0xFF] =
      adler32_short (wrapUL 32) MOD28 0xFFF0FFF0 [0xFF] 1 ∧
    adler32_one (wrapUL 32) 0xFFF0FFF0 [0xFF] =
      adler32_short (wrapUL 32) (MOD28_NO_DIVIDE 32) 0xFFF0FFF0 [0xFF] 1 ∧
    (adler32_one (wrapUL 32) 0xFFF0FFF0 [0xFF]).isSome = true ∧
    (∀ (bs : List Byte) (len : Nat), len ≠ 1 ∧ len < 16 →
      adler32 32 0xFFF0FFF0 (some bs) len =
        adler32_short (wrapUL 32) MOD28 0xFFF0FFF0 bs len)) :=
  ⟨by decide, by decide, adler32_one_eq_short 32 (by decide) 0xFFF0FFF0 (by decide) 0xFF⟩

/-- C17: the initial checksum 1 is a two-sided identity of the combiner on valid 32-bit
checksums: `adler32_combine_(1, c, len2) = c` for every `len2 >= 0`, and
`adler32_combine_(c, 1, 0) = c`. -/
theorem adler32_combine_identity (w : Nat) (hw : 32 ≤ w) (c : Nat) (hc : Valid c)
    (h32 : c < 2 ^ 32) (len2 : Int) (hl : 0 ≤ len2) :
    adler32_combine_ w 1 c len2 = c ∧ adler32_combine_ w c 1 0 = c := by
  obtain ⟨n, rfl⟩ := Int.eq_ofNat_of_zero_le hl
  obtain ⟨ha, hs⟩ := unpack_lt c hc
  have hp := pack_unpack c h32
  have e0 : adler32_combine_ w c 1 0 = adler32_combine_ w c 1 ((0 : Nat) : Int) := rfl
  rw [combine_eq w hw 1 c valid_one hc n, e0, combine_eq w hw c 1 hc valid_one 0, unpack_one]
  generalize unpack c = u at ha hs hp
  obtain ⟨a, s⟩ := u
  simp only [BASE] at ha hs
  simp only [Nat.mul_one, Nat.mod_mod, Nat.zero_mod, Nat.zero_mul, BASE]
  have hr : n % 65521 < 65521 := Nat.mod_lt _ (by decide)
  have e1 : (1 + a + 65521 - 1) % 65521 = a := by omega
  have e2 : (n % 65521 + 0 + s + 65521 - n % 65521) % 65521 = s := by omega
  have e3 : (a + 1 + 65521 - 1) % 65521 = a := by omega
  have e4 : (0 + s + 0 + 65521 - 0) % 65521 = s := by omega
  rw [e1, e2, e3, e4]
  exact ⟨hp, hp⟩

/-- Instance of C17 at the checksum of "Wikipedia" and a length above `2^32`. -/
theorem adler32_combine_identity_witness :
    32 ≤ 32 ∧ Valid 0x11E60398 ∧ 0x11E60398 < 2 ^ 32 ∧ (0 : Int) ≤ 2 ^ 40 ∧
    (adler32_combine_ 32 1 0x11E60398 (2 ^ 40) = 0x11E60398 ∧
      adler32_combine_ 32 0x11E60398 1 0 = 0x11E60398) :=
  ⟨by decide, by decide, by decide, by decide,
    adler32_combine_identity 32 (by decide) 0x11E60398 (by decide) (by decide) (2 ^ 40)
      (by decide)⟩

/-- C18: for all `adler1`, `adler2`, valid or not, `adler32_combine_` does not return
`0xFFFFFFFF` when `len2 >= 0`; so it returns `0xFFFFFFFF` if and only if `len2 < 0`. -/
theorem adler32_combine_sentinel_iff (w : Nat) (hw : 32 ≤ w) (adler1 adler2 : Nat)
    (len2 : Int) :
    (0 ≤ len2 → adler32_combine_ w adler1 adler2 len2 ≠ 0xFFFFFFFF) ∧
    (adler32_combine_ w adler1 adler2 len2 = 0xFFFFFFFF ↔ len2 < 0) := by
  have hpos : 0 ≤ len2 → adler32_combine_ w adler1 adler2 len2 ≠ 0xFFFFFFFF := by
    intro hl
    obtain ⟨n, rfl⟩ := Int.eq_ofNat_of_zero_le hl
    exact combine_ne_sentinel w hw adler1 adler2 n
  refine ⟨hpos, ?_, ?_⟩
  · intro h
    by_contra hl
    exact hpos (by omega) h
  · intro hl
    unfold adler32_combine_ adler32_combine_gen
    rw [if_pos hl]

/-- Instance of C18 at two all-ones arguments and the length 13. -/
theorem adler32_combine_sentinel_iff_witness :
    32 ≤ 32 ∧
    (((0 : Int) ≤ 13 → adler32_combine_ 32 0xFFFFFFFF 0xFFFFFFFF 13 ≠ 0xFFFFFFFF) ∧
    (adler32_combine_ 32 0xFFFFFFFF 0xFFFFFFFF 13 = 0xFFFFFFFF ↔ (13 : Int) < 0)) :=
  ⟨by decide, adler32_combine_sentinel_iff 32 (by decide) 0xFFFFFFFF 0xFFFFFFFF 13⟩

/-- C19: chunk-size independence needs a valid state: from `s = 0xFFFFFFF0` (sum1 = 65520,
sum2 = 65535, not valid) two calls on the single byte `0x00` leave the high half 65533, one
call on both bytes leaves 12. -/
theorem adler32_chunking_needs_valid :
    ¬ Valid 0xFFFFFFF0 ∧ unpack 0xFFFFFFF0 = (65520, 65535) ∧
    adler32 32 0xFFFFFFF0 (some [0x00]) 1 = some 0xFFFEFFF0 ∧
    adler32 32 0xFFFEFFF0 (some [0x00]) 1 = some 0xFFFDFFF0 ∧
    unpack 0xFFFDFFF0 = (65520, 65533) ∧
    adler32 32 0xFFFFFFF0 (some ([0x00] ++ [0x00])) 2 = some 0x000CFFF0 ∧
    unpack 0x000CFFF0 = (65520, 12) ∧
    (adler32 32 0xFFFFFFF0 (some [0x00]) 1).bind (fun s1 => adler32 32 s1 (some [0x00]) 1) ≠
      adler32 32 0xFFFFFFF0 (some ([0x00] ++ [0x00])) 2 := by
  decide

end Adler32
